import Mathlib

/-!
Verification of the supabase-pwn Autopwn engine core. The TypeScript
source is shallowly embedded: the key classifier, the batch concurrency
runner, the database verdict classifier, the database probe task, the
auth signup probe classifier, the progress model, the scan phase state
machine, the bruteforce discovery loop, the schema merge reducer and the
activity log reducer become pure Lean functions. JS numbers used by the
progress computation are modelled as rationals (the source only adds,
multiplies and divides small integers, which is exact), Math.round as
floor of x + 1/2, and JS strings as Lean strings or explicit char lists.
-/

namespace SupabasePwn

/-! ## JS string operations, modelled over explicit char lists -/

/-- JS String.startsWith: the first argument is the pattern, the second the
string that is inspected. -/
def startsWithL : List Char → List Char → Bool
  | [], _ => true
  | _ :: _, [] => false
  | p :: ps, k :: ks => (p == k) && startsWithL ps ks

/-- JS String.includes: does the first list contain the second as a
contiguous sublist. -/
def containsSub : List Char → List Char → Bool
  | [], pat => startsWithL pat []
  | c :: rest, pat => startsWithL pat (c :: rest) || containsSub rest pat

/-- JS String.toLowerCase, ASCII model. -/
def lowerChars (l : List Char) : List Char := l.map Char.toLower

/-- hay.includes(pat) for an already-lowercased hay and a literal pattern. -/
def jsIncludes (hay : List Char) (pat : String) : Bool := containsSub hay pat.data

/-! ## Key classifier (detectKeyType, supabase-context) -/

inductive ApiKeyType where
  | publishable
  | secret
  | anon
  | service_role
  | unknown
deriving DecidableEq

/-- JS key.split(".") over a char list. -/
def splitOnDot : List Char → List (List Char)
  | [] => [[]]
  | c :: rest =>
    match splitOnDot rest with
    | [] => [[]]
    | h :: t => if c = '.' then [] :: h :: t else (c :: h) :: t

/-- The middle JWT segment key.split(".")[1]. When the key has no dot the JS
code indexes out of range and the subsequent decode throws; the abstract
decoder argument of detectKeyType covers that by returning none. -/
def jwtPayloadSegment (key : List Char) : List Char := (splitOnDot key).getD 1 []

/-- detectKeyType from the source. The composite JSON.parse(atob(segment))
followed by the .role lookup is abstracted as decodeRole: none models a
thrown decode error (caught by the source and swallowed), some none models
a payload without a string role claim, some (some r) a payload whose role
claim is r. -/
def detectKeyType (decodeRole : List Char → Option (Option String)) (key : List Char) : ApiKeyType :=
  if startsWithL "sb_publishable_".data key then ApiKeyType.publishable
  else if startsWithL "sb_secret_".data key then ApiKeyType.secret
  else if startsWithL "eyJ".data key then
    match decodeRole (jwtPayloadSegment key) with
    | some (some role) =>
      if role = "service_role" then ApiKeyType.service_role
      else if role = "anon" then ApiKeyType.anon
      else ApiKeyType.unknown
    | some none => ApiKeyType.unknown
    | none => ApiKeyType.unknown
  else ApiKeyType.unknown

/-! ## Activity log reducer (ADD_LOG case, supabase-context) -/

inductive LogSeverity where
  | info
  | error
  | success
  | warning
deriving DecidableEq

/-- A log entry; the source field named type is called severity here. The
timestamp and structured payload are irrelevant to the bound and omitted. -/
structure LogEntry where
  id : String
  severity : LogSeverity
  message : String
deriving DecidableEq

def MAX_LOG_ENTRIES : Nat := 2000

/-- The ADD_LOG branch of the reducer: append, then slice down to the most
recent MAX_LOG_ENTRIES entries when over the limit. -/
def addLogEntry (logs : List LogEntry) (entry : LogEntry) : List LogEntry :=
  if MAX_LOG_ENTRIES < (logs ++ [entry]).length then
    (logs ++ [entry]).drop ((logs ++ [entry]).length - MAX_LOG_ENTRIES)
  else logs ++ [entry]

/-! ## Schema merge reducer (MERGE_SCHEMA case, supabase-context) -/

/-- The MERGE_SCHEMA branch for the tables list: existing names first, then
the new names that are not already present. -/
def mergeSchemaTables (existing newTables : List String) : List String :=
  existing ++ newTables.filter (fun t => !(existing.contains t))

/-! ## Bruteforce discovery (discoverTables, supabase-context) -/

/-- One bruteforce probe task. A name already in the catalogue returns null
before any fetch; a non-ok HTTP response returns null; an ok response
returns the name together with the parsed body rows (each row modelled by
its field-name list). -/
def bruteforceTask (existing : List String) (res : String → Option (List (List String)))
    (t : String) : Option (String × List (List String)) :=
  if existing.contains t then none
  else
    match res t with
    | none => none
    | some rows => some (t, rows)

/-- The names for which discoverTables issues a fetch: exactly the wordlist
entries that are not already in the catalogue (the existing.has guard
returns before the fetch). -/
def probesIssued (existing : List String) (wordlist : List String) : List String :=
  wordlist.filter (fun t => !(existing.contains t))

/-- The batched discovery loop, batch size 10, collecting the names of the
fulfilled non-null task results in wordlist order. Structured with explicit
fuel so that it is structurally recursive; the wrapper supplies fuel equal
to the wordlist length, which is enough because every round consumes at
least one candidate. -/
def discoverGo (existing : List String) (res : String → Option (List (List String))) :
    Nat → List String → List String
  | _, [] => []
  | 0, _ :: _ => []
  | f + 1, w :: ws =>
    (((w :: ws).take 10).filterMap (fun t => (bruteforceTask existing res t).map Prod.fst)) ++
      discoverGo existing res f ((w :: ws).drop 10)

/-- discoverTables reduced to the list of newly discovered names. -/
def discoverLoop (existing : List String) (res : String → Option (List (List String)))
    (wordlist : List String) : List String :=
  discoverGo existing res wordlist.length wordlist

/-! ## Batch concurrency runner (runInBatches, autopwn component) -/

/-- The settled state of one task promise: Promise.allSettled yields either
a fulfilled value or a rejection reason, and runInBatches pushes both into
the same output list. -/
inductive Settled (γ : Type) where
  | fulfilled (value : γ)
  | rejected (reason : γ)
deriving DecidableEq

def settleValue {γ : Type} : Settled γ → γ
  | Settled.fulfilled v => v
  | Settled.rejected r => r

/-- The wave loop of runInBatches. sg n is the value of signal.aborted that
the check at the start of wave n observes; the flag is checked before each
wave and, when set, the loop breaks, returning only the outcomes collected
so far. Structured with explicit fuel so that it is structurally recursive;
the wrapper supplies fuel equal to the task count, enough because every
wave consumes at least one task. -/
def runBatchesGo {γ : Type} : Nat → List (Settled γ) → Nat → (Nat → Bool) → List γ
  | _, [], _, _ => []
  | 0, _ :: _, _, _ => []
  | f + 1, x :: xs, b1, sg =>
    if sg 0 then []
    else
      ((x :: xs).take b1).map settleValue ++
        runBatchesGo f ((x :: xs).drop b1) b1 (fun n => sg (n + 1))

/-- runInBatches from the source. For batchSize 0 the source loop would not
terminate; the UI clamps the width to 5..50 so that case is never invoked,
and the model returns the empty list there. -/
def runInBatches {γ : Type} (tasks : List (Settled γ)) (batchSize : Nat)
    (sg : Nat → Bool) : List γ :=
  match batchSize with
  | 0 => []
  | b + 1 => runBatchesGo tasks.length tasks (b + 1) sg

/-! ## Database verdict classification (runDatabaseRls, autopwn component) -/

inductive AccessStatus where
  | allowed
  | denied
  | error
deriving DecidableEq

inductive WriteStatus where
  | allowed
  | denied
  | error
  | skipped
deriving DecidableEq

/-- The raw outcome of one database operation: ok n is a success whose data
array has n rows, apiError a structured supabase error with optional code
and message, thrown a JS exception caught by the surrounding try. -/
inductive DbOutcome where
  | ok (rowCount : Nat)
  | apiError (code : Option String) (message : String)
  | thrown (message : String)
deriving DecidableEq

/-- The denial test the source repeats for SELECT, INSERT and DELETE:
code "42501", or a lowercased message containing one of the four
substrings. -/
def deniedCheck (code : Option String) (message : String) : Bool :=
  (code.getD "" == "42501") ||
    jsIncludes (lowerChars message.data) "denied" ||
    jsIncludes (lowerChars message.data) "rls" ||
    jsIncludes (lowerChars message.data) "permission" ||
    jsIncludes (lowerChars message.data) "policy"

/-- The verdict the source assigns to a database operation outcome. -/
def classifyDb : DbOutcome → AccessStatus
  | DbOutcome.ok _ => AccessStatus.allowed
  | DbOutcome.apiError code msg =>
    if deniedCheck code msg then AccessStatus.denied else AccessStatus.error
  | DbOutcome.thrown _ => AccessStatus.error

/-- Case-insensitive substring containment, the wording used by the spec:
both the message and the pattern are lowercased. -/
def ciContains (s pat : String) : Bool :=
  containsSub (lowerChars s.data) (lowerChars pat.data)

/-- The verdict classifier as the spec words it, for comparison with
classifyDb: success is allowed; an error whose code equals the
insufficient-privilege code 42501, or whose message case-insensitively
contains denied, rls, permission or policy, is denied; every other error
is error. -/
def specClassifyDb : DbOutcome → AccessStatus
  | DbOutcome.ok _ => AccessStatus.allowed
  | DbOutcome.apiError code msg =>
    if code = some "42501" ∨ ciContains msg "denied" = true ∨ ciContains msg "rls" = true ∨
        ciContains msg "permission" = true ∨ ciContains msg "policy" = true then
      AccessStatus.denied
    else AccessStatus.error
  | DbOutcome.thrown _ => AccessStatus.error

/-! ## The per-table database probe task (runDatabaseRls task closure) -/

/-- One database phase result row; optional fields that the source leaves
undefined are none. -/
structure ScanResult where
  name : String
  select : Option AccessStatus := none
  insert : Option WriteStatus := none
  update : Option WriteStatus := none
  delete : Option WriteStatus := none
  details : Option String := none
deriving DecidableEq

/-- The network outcomes one table probe task observes. -/
structure TableProbe where
  name : String
  selOutcome : DbOutcome
  insOutcome : DbOutcome
  delOutcome : DbOutcome
deriving DecidableEq

/-- The SELECT part of the task: status and details fields. -/
def selectRow (name : String) : DbOutcome → ScanResult
  | DbOutcome.ok n =>
    { name := name
      select := some AccessStatus.allowed
      details := some ("SELECT returned " ++ toString n ++ " row(s)") }
  | DbOutcome.apiError code msg =>
    { name := name
      select := some (if deniedCheck code msg then AccessStatus.denied else AccessStatus.error)
      details := some ("SELECT: " ++ msg) }
  | DbOutcome.thrown msg =>
    { name := name, select := some AccessStatus.error, details := some msg }

/-- The write verdict for the INSERT and DELETE probes; the catch branch
records error with no message. -/
def writeVerdict : DbOutcome → WriteStatus
  | DbOutcome.ok _ => WriteStatus.allowed
  | DbOutcome.apiError code msg =>
    if deniedCheck code msg then WriteStatus.denied else WriteStatus.error
  | DbOutcome.thrown _ => WriteStatus.error

/-- One table probe task: the early-abort guard, the SELECT probe, then
either the INSERT and cleanup DELETE probes (write testing on; the source
never assigns the update field there) or the skipped write verdicts (write
testing off). -/
def probeTable (aborted writeTesting : Bool) (tp : TableProbe) : ScanResult :=
  if aborted then
    { name := tp.name, select := some AccessStatus.error, details := some "Aborted" }
  else if writeTesting then
    { selectRow tp.name tp.selOutcome with
        insert := some (writeVerdict tp.insOutcome)
        delete := some (writeVerdict tp.delOutcome) }
  else
    { selectRow tp.name tp.selOutcome with
        insert := some WriteStatus.skipped
        update := some WriteStatus.skipped
        delete := some WriteStatus.skipped }

/-- The database operations a task issues, in order. -/
inductive DbOp where
  | select
  | insert
  | update
  | delete
deriving DecidableEq

/-- The operation trace of one table probe task: nothing when the early
abort guard fires, the SELECT probe otherwise, followed by the INSERT and
DELETE probes exactly when write testing is on. No UPDATE is ever issued. -/
def probeOps (aborted writeTesting : Bool) : List DbOp :=
  if aborted then []
  else [DbOp.select] ++ (if writeTesting then [DbOp.insert, DbOp.delete] else [])

/-- The database phase: the per-table tasks run through runInBatches at the
configured concurrency. The early-abort guard inside a task runs before the
first suspension point of its wave, and a wave only starts when the wave
boundary check saw the flag unset; in the single-threaded event loop no
abort can interleave between those two checks, so the guard argument is
false for every task that runs. Tasks catch all their errors, so every
settled task is fulfilled. -/
def runDatabasePhase (writeTesting : Bool) (conc : Nat) (inputs : List TableProbe)
    (sg : Nat → Bool) : List ScanResult :=
  runInBatches (inputs.map (fun tp => Settled.fulfilled (probeTable false writeTesting tp)))
    conc sg

/-! ## Auth signup probe (runAuthProbing, autopwn component) -/

inductive AuthStatus where
  | enabled
  | disabled
  | error
deriving DecidableEq

structure AuthResult where
  feature : String
  status : AuthStatus
  details : Option String := none
deriving DecidableEq

/-- The raw outcome of the signUp call: ok hasUser is a success whose
response carries (or does not carry) a user object, err a structured auth
error, thrown a JS exception. -/
inductive AuthOutcome where
  | ok (hasUser : Bool)
  | err (message : String)
  | thrown (message : String)
deriving DecidableEq

/-- The Email Signup result row the source pushes for a signup outcome. -/
def signupResult (probeEmail : String) : AuthOutcome → AuthResult
  | AuthOutcome.err m =>
    if jsIncludes (lowerChars m.data) "disabled" ||
        jsIncludes (lowerChars m.data) "not allowed" ||
        jsIncludes (lowerChars m.data) "signup is not available" then
      { feature := "Email Signup", status := AuthStatus.disabled, details := some m }
    else
      { feature := "Email Signup", status := AuthStatus.error, details := some m }
  | AuthOutcome.ok hasUser =>
    { feature := "Email Signup"
      status := if hasUser then AuthStatus.enabled else AuthStatus.disabled
      details := some (if hasUser then "Account created for " ++ probeEmail
        else "Signup returned no user (may require email confirmation)") }
  | AuthOutcome.thrown m =>
    { feature := "Email Signup", status := AuthStatus.error, details := some m }

/-! ## Remaining phase result rows -/

structure StorageResult where
  name : String
  publicFlag : Bool
  listable : AccessStatus
  fileCount : Option Nat := none
deriving DecidableEq

inductive FnStatus where
  | found
  | not_found
  | error
deriving DecidableEq

structure FunctionResult where
  name : String
  status : FnStatus
  statusCode : Option Nat := none
deriving DecidableEq

/-! ## Progress model (getPhaseWeights and calculateProgress) -/

inductive ScanPhase where
  | idle
  | recon
  | database
  | storage
  | auth
  | functions
  | complete
deriving DecidableEq

/-- The position of a phase in the fixed execution order. -/
def phaseIdx : ScanPhase → Nat
  | ScanPhase.idle => 0
  | ScanPhase.recon => 1
  | ScanPhase.database => 2
  | ScanPhase.storage => 3
  | ScanPhase.auth => 4
  | ScanPhase.functions => 5
  | ScanPhase.complete => 6

/-- The scan configuration; customTables already split on commas and
newlines (the splitting is presentation-level text handling). -/
structure ScanConfig where
  databaseRls : Bool
  storageScan : Bool
  authProbing : Bool
  edgeFunctions : Bool
  concurrency : Nat
  writeTesting : Bool
  customTables : List String

/-- getPhaseWeights: recon always, then each enabled phase with its fixed
weight. -/
def getPhaseWeights (cfg : ScanConfig) : List (ScanPhase × ℚ) :=
  (ScanPhase.recon, (5 : ℚ)) ::
    ((if cfg.databaseRls then [(ScanPhase.database, (50 : ℚ))] else []) ++
     (if cfg.storageScan then [(ScanPhase.storage, (20 : ℚ))] else []) ++
     (if cfg.authProbing then [(ScanPhase.auth, (10 : ℚ))] else []) ++
     (if cfg.edgeFunctions then [(ScanPhase.functions, (15 : ℚ))] else []))

def totalWeight (cfg : ScanConfig) : ℚ := ((getPhaseWeights cfg).map Prod.snd).sum

/-- The accumulation loop of calculateProgress: weights of phases before
the current one, plus the scaled weight of the current phase, stopping
there; a phase not in the list accumulates every weight. -/
def accumulatedWeight : List (ScanPhase × ℚ) → ScanPhase → ℚ → ℚ
  | [], _, _ => 0
  | (p, w) :: rest, cur, fp =>
    if p = cur then w * fp / 100 else w + accumulatedWeight rest cur fp

/-- JS Math.round on the exact rational model. -/
def jsRound (q : ℚ) : ℤ := ⌊q + 1 / 2⌋

/-- calculateProgress from the source: accumulate, normalise by the total
weight, scale to a percentage, round, cap at 100. -/
def calculateProgress (cfg : ScanConfig) (cur : ScanPhase) (fp : ℚ) : ℤ :=
  min (jsRound (accumulatedWeight (getPhaseWeights cfg) cur fp / totalWeight cfg * 100)) 100

/-- Sum of the weights listed strictly before the current phase. -/
def sumBeforePhase : List (ScanPhase × ℚ) → ScanPhase → ℚ
  | [], _ => 0
  | (p, w) :: rest, cur => if p = cur then 0 else w + sumBeforePhase rest cur

/-- The weight the list assigns to a phase, 0 when absent. -/
def weightInList : List (ScanPhase × ℚ) → ScanPhase → ℚ
  | [], _ => 0
  | (p, w) :: rest, cur => if p = cur then w else weightInList rest cur

/-- The progress formula as the spec words it, for comparison with
calculateProgress: 100 times (sum of fully-completed enabled-phase weights
plus the current weight times its fractional completion) divided by the
total enabled weight, rounded, capped at 100. -/
def specProgress (cfg : ScanConfig) (cur : ScanPhase) (fp : ℚ) : ℤ :=
  min (jsRound (100 * (sumBeforePhase (getPhaseWeights cfg) cur +
    weightInList (getPhaseWeights cfg) cur * (fp / 100)) / totalWeight cfg)) 100

/-! ## The scan state machine (handleStartScan) -/

/-- The scanner state the orchestrator mutates. -/
structure ScanState where
  phase : ScanPhase
  progress : ℤ
  progressLabel : String
  dbResults : List ScanResult
  storageResults : List StorageResult
  authResults : List AuthResult
  fnResults : List FunctionResult

/-- The rows each phase would produce, supplied by the network environment:
one list for an uninterrupted run and one (typically a prefix) for a run
during which the abort flag was raised. -/
structure ScanEnv where
  dbFull : List ScanResult
  dbAborted : List ScanResult
  storageFull : List StorageResult
  storageAborted : List StorageResult
  authFull : List AuthResult
  authAborted : List AuthResult
  fnFull : List FunctionResult
  fnAborted : List FunctionResult

/-- The phases handleStartScan executes, in order: recon always, then each
phase enabled in the configuration. -/
def runEnabled (cfg : ScanConfig) : List ScanPhase :=
  ScanPhase.recon ::
    ((if cfg.databaseRls then [ScanPhase.database] else []) ++
     (if cfg.storageScan then [ScanPhase.storage] else []) ++
     (if cfg.authProbing then [ScanPhase.auth] else []) ++
     (if cfg.edgeFunctions then [ScanPhase.functions] else []))

/-- Whether the check after phase p observes the abort flag, when the flag
is raised during phase ad (none: never raised). The flag is set once and
never reset, so every later check observes it too. -/
def abortSeenAfter (ad : Option ScanPhase) (p : ScanPhase) : Bool :=
  match ad with
  | none => false
  | some q => decide (phaseIdx q ≤ phaseIdx p)

/-- Running one phase: each phase sets the phase marker, its label, its
result rows (the aborted variant when the flag was raised during it) and
its end-of-phase progress update. idle and complete are never run. -/
def runPhaseStep (cfg : ScanConfig) (env : ScanEnv) (ad : Option ScanPhase)
    (st : ScanState) (p : ScanPhase) : ScanState :=
  match p with
  | ScanPhase.recon =>
    { st with
        phase := ScanPhase.recon
        progressLabel := "Reconnaissance"
        progress := calculateProgress cfg ScanPhase.recon 100 }
  | ScanPhase.database =>
    { st with
        phase := ScanPhase.database
        progressLabel := "Database RLS Testing"
        dbResults := if ad = some ScanPhase.database then env.dbAborted else env.dbFull
        progress := calculateProgress cfg ScanPhase.database 100 }
  | ScanPhase.storage =>
    { st with
        phase := ScanPhase.storage
        progressLabel := "Storage Scanning"
        storageResults := if ad = some ScanPhase.storage then env.storageAborted else env.storageFull
        progress := calculateProgress cfg ScanPhase.storage 100 }
  | ScanPhase.auth =>
    { st with
        phase := ScanPhase.auth
        progressLabel := "Auth Probing"
        authResults := if ad = some ScanPhase.auth then env.authAborted else env.authFull
        progress := calculateProgress cfg ScanPhase.auth 100 }
  | ScanPhase.functions =>
    { st with
        phase := ScanPhase.functions
        progressLabel := "Edge Function Discovery"
        fnResults := if ad = some ScanPhase.functions then env.fnAborted else env.fnFull
        progress := calculateProgress cfg ScanPhase.functions 100 }
  | _ => st

/-- The try block of handleStartScan: run each phase in order, and after
each one re-check the abort flag, throwing (modelled as Except.error
carrying the state at the throw) when it is set. -/
def scanBody (cfg : ScanConfig) (env : ScanEnv) (ad : Option ScanPhase) :
    List ScanPhase → ScanState → Except ScanState ScanState
  | [], st => Except.ok st
  | p :: rest, st =>
    let st2 := runPhaseStep cfg env ad st p
    if abortSeenAfter ad p then Except.error st2 else scanBody cfg env ad rest st2

/-- The state handleStartScan resets before the first phase. -/
def initialScanState : ScanState :=
  { phase := ScanPhase.idle
    progress := 0
    progressLabel := ""
    dbResults := []
    storageResults := []
    authResults := []
    fnResults := [] }

/-- handleStartScan: reset, run the enabled phases; on normal completion
set complete with progress 100, on an abort-triggered throw fall into the
catch branch that reports the aborted scan and returns to idle. -/
def runScan (cfg : ScanConfig) (env : ScanEnv) (ad : Option ScanPhase) : ScanState :=
  match scanBody cfg env ad (runEnabled cfg) initialScanState with
  | Except.ok st =>
    { st with phase := ScanPhase.complete, progress := 100, progressLabel := "Scan Complete" }
  | Except.error st =>
    { st with phase := ScanPhase.idle, progressLabel := "Scan Aborted" }

/-! ## Concrete sample inputs used by the witness theorems -/

def sampleConfig : ScanConfig :=
  { databaseRls := true
    storageScan := true
    authProbing := true
    edgeFunctions := true
    concurrency := 10
    writeTesting := false
    customTables := [] }

def sampleRow : ScanResult :=
  { name := "users", select := some AccessStatus.allowed }

def sampleEnv : ScanEnv :=
  { dbFull := [sampleRow]
    dbAborted := []
    storageFull := []
    storageAborted := []
    authFull := []
    authAborted := []
    fnFull := []
    fnAborted := [] }

def sampleProbe : TableProbe :=
  { name := "orders"
    selOutcome := DbOutcome.ok 0
    insOutcome := DbOutcome.ok 0
    delOutcome := DbOutcome.ok 0 }

def sampleDecode : List Char → Option (Option String) :=
  fun seg => if seg = "p".data then some (some "anon") else none

def sampleRes : String → Option (List (List String)) :=
  fun t => if t = "foo" then some [] else none

/-! # Theorems -/

/-! ## Batch runner lemmas -/

theorem runBatchesGo_all_false {γ : Type} :
    ∀ (fuel : Nat) (tasks : List (Settled γ)) (b : Nat) (sg : Nat → Bool),
      tasks.length ≤ fuel → (∀ n, sg n = false) →
      runBatchesGo fuel tasks (b + 1) sg = tasks.map settleValue := by
  intro fuel
  induction fuel with
  | zero =>
    intro tasks b sg hlen hsg
    have h0 : tasks = [] := List.eq_nil_of_length_eq_zero (Nat.le_zero.mp hlen)
    subst h0
    rfl
  | succ f ih =>
    intro tasks b sg hlen hsg
    cases tasks with
    | nil => rfl
    | cons x xs =>
      rw [runBatchesGo, hsg 0]
      simp only [Bool.false_eq_true, if_false]
      rw [ih ((x :: xs).drop (b + 1)) b (fun n => sg (n + 1))
        (by simp only [List.length_drop, List.length_cons] at hlen ⊢; omega)
        (fun n => hsg (n + 1))]
      rw [← List.map_append, List.take_append_drop]

theorem runBatchesGo_first_abort {γ : Type} :
    ∀ (k fuel : Nat) (tasks : List (Settled γ)) (b : Nat) (sg : Nat → Bool),
      tasks.length ≤ fuel → sg k = true → (∀ j, j < k → sg j = false) →
      runBatchesGo fuel tasks (b + 1) sg = (tasks.take (k * (b + 1))).map settleValue := by
  intro k
  induction k with
  | zero =>
    intro fuel tasks b sg hlen hk _
    cases tasks with
    | nil => cases fuel <;> simp [runBatchesGo]
    | cons x xs =>
      cases fuel with
      | zero => simp at hlen
      | succ f => simp [runBatchesGo, hk]
  | succ k ih =>
    intro fuel tasks b sg hlen hk hprev
    cases tasks with
    | nil => cases fuel <;> simp [runBatchesGo]
    | cons x xs =>
      cases fuel with
      | zero => simp at hlen
      | succ f =>
        rw [runBatchesGo, hprev 0 (Nat.succ_pos k)]
        simp only [Bool.false_eq_true, if_false]
        rw [ih f ((x :: xs).drop (b + 1)) b (fun n => sg (n + 1))
          (by simp only [List.length_drop, List.length_cons] at hlen ⊢; omega)
          hk (fun j hj => hprev (j + 1) (by omega))]
        conv_rhs =>
          rw [show (k + 1) * (b + 1) = (b + 1) + k * (b + 1) by ring,
            List.take_add, List.map_append]

theorem mem_of_mem_runBatchesGo {γ : Type} :
    ∀ (fuel : Nat) (tasks : List (Settled γ)) (b1 : Nat) (sg : Nat → Bool) (r : γ),
      r ∈ runBatchesGo fuel tasks b1 sg → ∃ t ∈ tasks, r = settleValue t := by
  intro fuel
  induction fuel with
  | zero =>
    intro tasks b1 sg r hr
    cases tasks <;> simp [runBatchesGo] at hr
  | succ f ih =>
    intro tasks b1 sg r hr
    cases tasks with
    | nil => simp [runBatchesGo] at hr
    | cons x xs =>
      rw [runBatchesGo] at hr
      by_cases h0 : sg 0
      · simp [h0] at hr
      · simp only [h0, Bool.false_eq_true, if_false] at hr
        rcases List.mem_append.mp hr with hl | hrr
        · rcases List.mem_map.mp hl with ⟨t, ht, hteq⟩
          exact ⟨t, List.take_subset _ _ ht, hteq.symm⟩
        · rcases ih _ _ _ _ hrr with ⟨t, ht, hteq⟩
          exact ⟨t, List.drop_subset _ _ ht, hteq⟩

theorem runInBatches_no_abort {γ : Type} (tasks : List (Settled γ)) (b : Nat) (hb : 1 ≤ b) :
    runInBatches tasks b (fun _ => false) = tasks.map settleValue := by
  obtain ⟨b1, rfl⟩ : ∃ b1, b = b1 + 1 := ⟨b - 1, by omega⟩
  exact runBatchesGo_all_false tasks.length tasks b1 _ le_rfl (fun _ => rfl)

theorem runInBatches_first_abort {γ : Type} (tasks : List (Settled γ)) (b k : Nat)
    (sg : Nat → Bool) (hk : sg k = true) (hprev : ∀ j, j < k → sg j = false) :
    runInBatches tasks (b + 1) sg = (tasks.take (k * (b + 1))).map settleValue :=
  runBatchesGo_first_abort k tasks.length tasks b sg le_rfl hk hprev

theorem mem_runInBatches {γ : Type} {tasks : List (Settled γ)} {b : Nat} {sg : Nat → Bool}
    {r : γ} (hr : r ∈ runInBatches tasks b sg) : ∃ t ∈ tasks, r = settleValue t := by
  cases b with
  | zero => simp [runInBatches] at hr
  | succ b1 => exact mem_of_mem_runBatchesGo tasks.length tasks (b1 + 1) sg r hr

/-- C1: for every list of probe tasks and every batch width at least 1,
with an abort signal that is never set, runInBatches returns exactly one
outcome per task in input order; a rejected task contributes its rejection
reason at its own position without disturbing any other task. -/
theorem batch_runner_outcomes (γ : Type) (tasks : List (Settled γ)) (b : Nat) (hb : 1 ≤ b) :
    runInBatches tasks b (fun _ => false) = tasks.map settleValue ∧
    (runInBatches tasks b (fun _ => false)).length = tasks.length := by
  have h := runInBatches_no_abort tasks b hb
  exact ⟨h, by rw [h, List.length_map]⟩

theorem batch_runner_outcomes_witness :
    runInBatches [Settled.fulfilled 1, Settled.rejected 2, Settled.fulfilled 3] 2
      (fun _ => false) = [1, 2, 3] := by
  rw [(batch_runner_outcomes Nat [Settled.fulfilled 1, Settled.rejected 2, Settled.fulfilled 3]
    2 (by decide)).1]
  decide

/-! ## Activity log bound -/

/-- C10: every append leaves at most 2000 entries: the result length is
min (previous + 1) 2000, and the kept entries are exactly the most recent
ones (the drop of the appended list), so a log at the limit drops its
oldest entry. -/
theorem activity_log_bounded (logs : List LogEntry) (entry : LogEntry) :
    (addLogEntry logs entry).length = min (logs.length + 1) MAX_LOG_ENTRIES ∧
    (addLogEntry logs entry).length ≤ MAX_LOG_ENTRIES ∧
    addLogEntry logs entry = (logs ++ [entry]).drop (logs.length + 1 - MAX_LOG_ENTRIES) := by
  have hlen : (logs ++ [entry]).length = logs.length + 1 := by simp
  unfold addLogEntry
  by_cases h : MAX_LOG_ENTRIES < (logs ++ [entry]).length
  · rw [if_pos h]
    rw [hlen] at h
    refine ⟨?_, ?_, ?_⟩
    · rw [List.length_drop, hlen]
      omega
    · rw [List.length_drop, hlen]
      omega
    · rw [hlen]
  · rw [if_neg h]
    rw [hlen] at h
    refine ⟨?_, ?_, ?_⟩
    · rw [hlen]
      omega
    · rw [hlen]
      omega
    · rw [show logs.length + 1 - MAX_LOG_ENTRIES = 0 by omega, List.drop_zero]

/-! ## Database verdict classifier -/

theorem lowerChars_fixed_patterns :
    lowerChars "denied".data = "denied".data ∧ lowerChars "rls".data = "rls".data ∧
    lowerChars "permission".data = "permission".data ∧
    lowerChars "policy".data = "policy".data := by decide

theorem deniedCheck_iff (code : Option String) (msg : String) :
    deniedCheck code msg = true ↔
      (code = some "42501" ∨ ciContains msg "denied" = true ∨ ciContains msg "rls" = true ∨
        ciContains msg "permission" = true ∨ ciContains msg "policy" = true) := by
  unfold deniedCheck ciContains
  rw [lowerChars_fixed_patterns.1, lowerChars_fixed_patterns.2.1,
    lowerChars_fixed_patterns.2.2.1, lowerChars_fixed_patterns.2.2.2]
  cases code with
  | none =>
    simp only [Option.getD, jsIncludes, Bool.or_eq_true, beq_iff_eq]
    simp
    tauto
  | some s =>
    simp only [Option.getD, jsIncludes, Bool.or_eq_true, beq_iff_eq]
    simp
    tauto

/-- C2: the database verdict classifier matches the spec wording exactly:
success is allowed, an error with code 42501 or a message that
case-insensitively contains denied, rls, permission or policy is denied,
and every other error is error; and the select verdict of every
non-aborted table probe row is produced by that classifier. -/
theorem db_verdict_rules :
    (∀ o : DbOutcome, classifyDb o = specClassifyDb o) ∧
    (∀ (wt : Bool) (tp : TableProbe),
      (probeTable false wt tp).select = some (classifyDb tp.selOutcome)) := by
  constructor
  · intro o
    cases o with
    | ok n => rfl
    | thrown m => rfl
    | apiError code msg =>
      simp only [classifyDb, specClassifyDb]
      by_cases h : deniedCheck code msg = true
      · rw [if_pos h, if_pos ((deniedCheck_iff code msg).mp h)]
      · rw [if_neg (by simpa using h), if_neg (fun hc => h ((deniedCheck_iff code msg).mpr hc))]
  · intro wt tp
    cases wt <;> cases htp : tp.selOutcome <;>
      simp [probeTable, selectRow, classifyDb, htp]

/-! ## Database write probes -/

/-- C4 counterexample: with write testing enabled the source never assigns
the update field, so the row reports no update verdict at all rather than
the skipped verdict the claim asserts. -/
theorem db_update_unset_cex :
    (probeTable false true sampleProbe).update ≠ some WriteStatus.skipped := by decide

/-- C4 (amended): no UPDATE probe is ever issued, for both settings of the
write-testing flag; the update verdict is reported skipped only when write
testing is disabled, and is left unset (absent) when write testing is
enabled. -/
theorem db_update_never_probed (ab wt : Bool) (tp : TableProbe) :
    DbOp.update ∉ probeOps ab wt ∧
    (wt = false → ab = false → (probeTable ab wt tp).update = some WriteStatus.skipped) ∧
    (wt = true → (probeTable ab wt tp).update = none) := by
  refine ⟨?_, ?_, ?_⟩
  · cases ab <;> cases wt <;> decide
  · rintro rfl rfl
    rfl
  · rintro rfl
    cases ab with
    | true => rfl
    | false => cases htp : tp.selOutcome <;> simp [probeTable, selectRow, htp]

theorem db_update_never_probed_witness :
    DbOp.update ∉ probeOps false false ∧
    (probeTable false false sampleProbe).update = some WriteStatus.skipped :=
  ⟨(db_update_never_probed false false sampleProbe).1,
    (db_update_never_probed false false sampleProbe).2.1 rfl rfl⟩

/-- C5: with write testing disabled, every row the database phase produces
reports insert, update and delete as skipped (so never denied or error). -/
theorem db_write_disabled_all_skipped (conc : Nat) (sg : Nat → Bool)
    (inputs : List TableProbe) (r : ScanResult)
    (hr : r ∈ runDatabasePhase false conc inputs sg) :
    r.insert = some WriteStatus.skipped ∧ r.update = some WriteStatus.skipped ∧
    r.delete = some WriteStatus.skipped := by
  unfold runDatabasePhase at hr
  rcases mem_runInBatches hr with ⟨t, ht, hteq⟩
  rcases List.mem_map.mp ht with ⟨tp, _, htp⟩
  rw [hteq, ← htp]
  cases hsel : tp.selOutcome <;> simp [settleValue, probeTable, selectRow, hsel]

theorem db_write_disabled_all_skipped_witness :
    (probeTable false false sampleProbe).insert = some WriteStatus.skipped ∧
    (probeTable false false sampleProbe).update = some WriteStatus.skipped ∧
    (probeTable false false sampleProbe).delete = some WriteStatus.skipped :=
  db_write_disabled_all_skipped 5 (fun _ => false) [sampleProbe]
    (probeTable false false sampleProbe) (by decide)

/-! ## Key classifier -/

theorem startsWithL_cons_iff (c : Char) (ps key : List Char) :
    startsWithL (c :: ps) key = true ↔ ∃ ks, key = c :: ks ∧ startsWithL ps ks = true := by
  cases key with
  | nil => simp [startsWithL]
  | cons k ks =>
    constructor
    · intro h
      simp only [startsWithL, Bool.and_eq_true, beq_iff_eq] at h
      exact ⟨ks, by rw [h.1], h.2⟩
    · rintro ⟨ks2, heq, h⟩
      rw [heq]
      simp [startsWithL, h]

theorem startsWithL_false_of_head_ne (p k : Char) (ps ks : List Char) (h : (p == k) = false) :
    startsWithL (p :: ps) (k :: ks) = false := by
  simp [startsWithL, h]

theorem startsWithL_cons_same (c : Char) (ps ks : List Char) :
    startsWithL (c :: ps) (c :: ks) = startsWithL ps ks := by
  simp [startsWithL]

theorem not_pub_of_sec (key : List Char) (h : startsWithL "sb_secret_".data key = true) :
    startsWithL "sb_publishable_".data key = false := by
  have h2 : startsWithL ('s' :: 'b' :: '_' :: 's' :: "ecret_".data) key = true := h
  rcases (startsWithL_cons_iff _ _ _).mp h2 with ⟨k1, rfl, h3⟩
  rcases (startsWithL_cons_iff _ _ _).mp h3 with ⟨k2, rfl, h4⟩
  rcases (startsWithL_cons_iff _ _ _).mp h4 with ⟨k3, rfl, h5⟩
  rcases (startsWithL_cons_iff _ _ _).mp h5 with ⟨k4, rfl, _⟩
  show startsWithL ('s' :: 'b' :: '_' :: 'p' :: "ublishable_".data)
    ('s' :: 'b' :: '_' :: 's' :: k4) = false
  rw [startsWithL_cons_same, startsWithL_cons_same, startsWithL_cons_same]
  exact startsWithL_false_of_head_ne _ _ _ _ (by decide)

theorem not_pub_of_eyJ (key : List Char) (h : startsWithL "eyJ".data key = true) :
    startsWithL "sb_publishable_".data key = false := by
  have h2 : startsWithL ('e' :: "yJ".data) key = true := h
  rcases (startsWithL_cons_iff _ _ _).mp h2 with ⟨k1, rfl, _⟩
  exact startsWithL_false_of_head_ne _ _ _ _ (by decide)

theorem not_sec_of_eyJ (key : List Char) (h : startsWithL "eyJ".data key = true) :
    startsWithL "sb_secret_".data key = false := by
  have h2 : startsWithL ('e' :: "yJ".data) key = true := h
  rcases (startsWithL_cons_iff _ _ _).mp h2 with ⟨k1, rfl, _⟩
  exact startsWithL_false_of_head_ne _ _ _ _ (by decide)

/-- C7: the key classifier returns publishable and secret on the two
literal prefixes, dispatches eyJ-prefixed keys on the decoded role claim
(service_role and anon to their classes, any other or missing role to
unknown), maps every decode failure to unknown, and returns unknown for
every other input. As a total Lean function it cannot throw. -/
theorem key_classifier_rules (decodeRole : List Char → Option (Option String))
    (key : List Char) :
    (startsWithL "sb_publishable_".data key = true →
      detectKeyType decodeRole key = ApiKeyType.publishable) ∧
    (startsWithL "sb_secret_".data key = true →
      detectKeyType decodeRole key = ApiKeyType.secret) ∧
    (startsWithL "eyJ".data key = true →
      ∀ role, decodeRole (jwtPayloadSegment key) = some (some role) →
        (role = "service_role" → detectKeyType decodeRole key = ApiKeyType.service_role) ∧
        (role = "anon" → detectKeyType decodeRole key = ApiKeyType.anon) ∧
        (role ≠ "service_role" → role ≠ "anon" →
          detectKeyType decodeRole key = ApiKeyType.unknown)) ∧
    (startsWithL "eyJ".data key = true → decodeRole (jwtPayloadSegment key) = none →
      detectKeyType decodeRole key = ApiKeyType.unknown) ∧
    (startsWithL "eyJ".data key = true → decodeRole (jwtPayloadSegment key) = some none →
      detectKeyType decodeRole key = ApiKeyType.unknown) ∧
    (startsWithL "sb_publishable_".data key = false →
      startsWithL "sb_secret_".data key = false →
      startsWithL "eyJ".data key = false →
      detectKeyType decodeRole key = ApiKeyType.unknown) := by
  refine ⟨?_, ?_, ?_, ?_, ?_, ?_⟩
  · intro h
    simp [detectKeyType, h]
  · intro h
    simp [detectKeyType, h, not_pub_of_sec key h]
  · intro h role hdec
    have hp := not_pub_of_eyJ key h
    have hs := not_sec_of_eyJ key h
    refine ⟨?_, ?_, ?_⟩
    · rintro rfl
      simp [detectKeyType, h, hp, hs, hdec]
    · rintro rfl
      simp [detectKeyType, h, hp, hs, hdec]
    · intro h1 h2
      simp [detectKeyType, h, hp, hs, hdec, h1, h2]
  · intro h hdec
    simp [detectKeyType, h, not_pub_of_eyJ key h, not_sec_of_eyJ key h, hdec]
  · intro h hdec
    simp [detectKeyType, h, not_pub_of_eyJ key h, not_sec_of_eyJ key h, hdec]
  · intro h1 h2 h3
    simp [detectKeyType, h1, h2, h3]

theorem key_classifier_rules_witness :
    detectKeyType sampleDecode "sb_publishable_abc".data = ApiKeyType.publishable ∧
    detectKeyType sampleDecode "eyJx.p.sig".data = ApiKeyType.anon := by
  constructor
  · exact (key_classifier_rules sampleDecode "sb_publishable_abc".data).1 (by decide)
  · exact (((key_classifier_rules sampleDecode "eyJx.p.sig".data).2.2.1 (by decide))
      "anon" (by decide)).2.1 rfl

/-! ## Auth signup probe -/

/-- C9: a signup success that carries no user object yields status disabled
with the explanatory details text (never enabled); an error whose message
contains disabled, not allowed, or the signup-unavailable phrase yields
disabled; and the row is enabled exactly when the response carried a user
object. -/
theorem signup_probe_rules (probeEmail : String) (o : AuthOutcome) :
    ((signupResult probeEmail (AuthOutcome.ok false)).status = AuthStatus.disabled ∧
     (signupResult probeEmail (AuthOutcome.ok false)).details =
       some "Signup returned no user (may require email confirmation)" ∧
     (signupResult probeEmail (AuthOutcome.ok false)).status ≠ AuthStatus.enabled) ∧
    (∀ m : String,
      (jsIncludes (lowerChars m.data) "disabled" = true ∨
       jsIncludes (lowerChars m.data) "not allowed" = true ∨
       jsIncludes (lowerChars m.data) "signup is not available" = true) →
      (signupResult probeEmail (AuthOutcome.err m)).status = AuthStatus.disabled) ∧
    ((signupResult probeEmail o).status = AuthStatus.enabled ↔ o = AuthOutcome.ok true) := by
  refine ⟨⟨rfl, rfl, by simp [signupResult]⟩, ?_, ?_⟩
  · intro m hm
    rcases hm with h | h | h <;> simp [signupResult, h]
  · cases o with
    | ok hasUser => cases hasUser <;> simp [signupResult]
    | err m =>
      by_cases hc : (jsIncludes (lowerChars m.data) "disabled" ||
          jsIncludes (lowerChars m.data) "not allowed" ||
          jsIncludes (lowerChars m.data) "signup is not available") = true <;>
        simp [signupResult, hc]
    | thrown m => simp [signupResult]

theorem signup_probe_rules_witness :
    (signupResult "probe@j5.no"
      (AuthOutcome.err "Signups not allowed for this instance")).status =
      AuthStatus.disabled :=
  (signup_probe_rules "probe@j5.no" (AuthOutcome.ok true)).2.1
    "Signups not allowed for this instance" (Or.inr (Or.inl (by decide)))

/-! ## Bruteforce discovery -/

theorem bruteforceTask_some {existing : List String}
    {res : String → Option (List (List String))} {a : String}
    {pr : String × List (List String)} (h : bruteforceTask existing res a = some pr) :
    pr.1 = a ∧ existing.contains a = false ∧ res a = some pr.2 := by
  unfold bruteforceTask at h
  by_cases hca : existing.contains a = true
  · rw [if_pos hca] at h
    exact Option.noConfusion h
  · rw [if_neg hca] at h
    cases hra : res a with
    | none =>
      rw [hra] at h
      exact Option.noConfusion h
    | some rows =>
      rw [hra] at h
      injection h with h2
      subst h2
      exact ⟨rfl, by simpa using hca, rfl⟩

theorem mem_discoverGo_of :
    ∀ (fuel : Nat) (wl existing : List String)
      (res : String → Option (List (List String))) (t : String)
      (rows : List (List String)),
      wl.length ≤ fuel → t ∈ wl → existing.contains t = false → res t = some rows →
      t ∈ discoverGo existing res fuel wl := by
  intro fuel
  induction fuel with
  | zero =>
    intro wl existing res t rows hlen hmem _ _
    have h0 : wl = [] := List.eq_nil_of_length_eq_zero (Nat.le_zero.mp hlen)
    subst h0
    simp at hmem
  | succ f ih =>
    intro wl existing res t rows hlen hmem hex hres
    cases wl with
    | nil => simp at hmem
    | cons w ws =>
      rw [discoverGo]
      have hmem2 : t ∈ (w :: ws).take 10 ++ (w :: ws).drop 10 := by
        rw [List.take_append_drop]
        exact hmem
      rcases List.mem_append.mp hmem2 with hl | hrr
      · apply List.mem_append_left
        apply List.mem_filterMap.mpr
        refine ⟨t, hl, ?_⟩
        unfold bruteforceTask
        have hex2 : ¬ existing.contains t = true := by
          rw [hex]
          exact Bool.false_ne_true
        rw [if_neg hex2, hres]
        rfl
      · apply List.mem_append_right
        exact ih _ _ _ _ rows
          (by simp only [List.length_drop, List.length_cons] at hlen ⊢; omega)
          hrr hex hres

theorem not_mem_discoverGo {existing : List String}
    {res : String → Option (List (List String))} {t : String} (hres : res t = none) :
    ∀ (fuel : Nat) (wl : List String), t ∉ discoverGo existing res fuel wl := by
  intro fuel
  induction fuel with
  | zero =>
    intro wl hmem
    cases wl <;> simp [discoverGo] at hmem
  | succ f ih =>
    intro wl hmem
    cases wl with
    | nil => simp [discoverGo] at hmem
    | cons w ws =>
      rw [discoverGo] at hmem
      rcases List.mem_append.mp hmem with hl | hrr
      · rcases List.mem_filterMap.mp hl with ⟨a, _, hsome⟩
        rcases hopt : bruteforceTask existing res a with _ | pr
        · rw [hopt] at hsome
          simp at hsome
        · rw [hopt] at hsome
          injection hsome with h3
          rcases bruteforceTask_some hopt with ⟨hfst, _, hra⟩
          rw [hfst] at h3
          rw [h3] at hra
          rw [hres] at hra
          exact Option.noConfusion hra
      · exact ih _ hrr

/-- C8: a candidate already in the catalogue is never probed; a candidate
whose probe succeeds at HTTP level is discovered even when its body is the
empty row list; a candidate whose probe fails at HTTP level is discarded;
and merging discoveries into the catalogue keeps every existing name. -/
theorem bruteforce_discovery_rules (existing : List String)
    (res : String → Option (List (List String))) (wl newTables : List String)
    (t : String) :
    (existing.contains t = true → t ∉ probesIssued existing wl) ∧
    (∀ rows, t ∈ wl → existing.contains t = false → res t = some rows →
      t ∈ discoverLoop existing res wl) ∧
    (res t = none → t ∉ discoverLoop existing res wl) ∧
    (t ∈ existing → t ∈ mergeSchemaTables existing newTables) := by
  refine ⟨?_, ?_, ?_, ?_⟩
  · intro hc hmem
    rcases List.mem_filter.mp hmem with ⟨_, hpred⟩
    simp only [Bool.not_eq_true'] at hpred
    rw [hc] at hpred
    exact Bool.noConfusion hpred
  · intro rows hm hex hres
    exact mem_discoverGo_of wl.length wl existing res t rows le_rfl hm hex hres
  · intro hres
    exact not_mem_discoverGo hres wl.length wl
  · intro hmem
    exact List.mem_append_left _ hmem

theorem bruteforce_discovery_rules_witness :
    "foo" ∈ discoverLoop ["users"] sampleRes ["foo", "bar"] ∧
    "users" ∈ mergeSchemaTables ["users"] ["foo"] :=
  ⟨(bruteforce_discovery_rules ["users"] sampleRes ["foo", "bar"] ["foo"] "foo").2.1
      [] (by decide) (by decide) (by decide),
    (bruteforce_discovery_rules ["users"] sampleRes ["foo", "bar"] ["foo"] "users").2.2.2
      (by decide)⟩

/-! ## Progress model lemmas -/

theorem accumulatedWeight_eq (l : List (ScanPhase × ℚ)) (cur : ScanPhase) (fp : ℚ) :
    accumulatedWeight l cur fp = sumBeforePhase l cur + weightInList l cur * fp / 100 := by
  induction l with
  | nil => simp [accumulatedWeight, sumBeforePhase, weightInList]
  | cons x rest ih =>
    rcases x with ⟨p, w⟩
    by_cases h : p = cur
    · simp only [accumulatedWeight, sumBeforePhase, weightInList, if_pos h]
      ring
    · simp only [accumulatedWeight, sumBeforePhase, weightInList, if_neg h]
      rw [ih]
      ring

theorem sumBeforePhase_nonneg (l : List (ScanPhase × ℚ)) (cur : ScanPhase)
    (hnn : ∀ x ∈ l, 0 ≤ x.2) : 0 ≤ sumBeforePhase l cur := by
  induction l with
  | nil => simp [sumBeforePhase]
  | cons x rest ih =>
    rcases x with ⟨p, w⟩
    by_cases h : p = cur
    · simp [sumBeforePhase, if_pos h]
    · simp only [sumBeforePhase, if_neg h]
      have h1 : (0 : ℚ) ≤ w := hnn (p, w) (List.mem_cons_self _ _)
      have h2 := ih (fun x hx => hnn x (List.mem_cons_of_mem _ hx))
      linarith

theorem weightInList_nonneg (l : List (ScanPhase × ℚ)) (cur : ScanPhase)
    (hnn : ∀ x ∈ l, 0 ≤ x.2) : 0 ≤ weightInList l cur := by
  induction l with
  | nil => simp [weightInList]
  | cons x rest ih =>
    rcases x with ⟨p, w⟩
    by_cases h : p = cur
    · simp only [weightInList, if_pos h]
      exact hnn (p, w) (List.mem_cons_self _ _)
    · simp only [weightInList, if_neg h]
      exact ih (fun x hx => hnn x (List.mem_cons_of_mem _ hx))

theorem sumBefore_weight_le :
    ∀ (l : List (ScanPhase × ℚ)) (p1 p2 : ScanPhase),
      (∀ x ∈ l, 0 ≤ x.2) →
      l.Pairwise (fun x y => phaseIdx x.1 < phaseIdx y.1) →
      p1 ∈ l.map Prod.fst → phaseIdx p1 < phaseIdx p2 →
      sumBeforePhase l p1 + weightInList l p1 ≤ sumBeforePhase l p2 := by
  intro l
  induction l with
  | nil =>
    intro p1 p2 _ _ hmem _
    simp at hmem
  | cons x rest ih =>
    intro p1 p2 hnn hsort hmem hlt
    rcases x with ⟨q, w⟩
    have hw : (0 : ℚ) ≤ w := hnn (q, w) (List.mem_cons_self _ _)
    have hnn2 : ∀ x ∈ rest, 0 ≤ x.2 := fun x hx => hnn x (List.mem_cons_of_mem _ hx)
    rcases List.pairwise_cons.mp hsort with ⟨hrel, htail⟩
    by_cases h1 : q = p1
    · subst h1
      have hne2 : q ≠ p2 := fun he => by
        rw [he] at hlt
        exact lt_irrefl _ hlt
      simp only [sumBeforePhase, weightInList, if_true]
      rw [if_neg hne2]
      have hs := sumBeforePhase_nonneg rest p2 hnn2
      linarith
    · by_cases h2 : q = p2
      · subst h2
        exfalso
        simp only [List.map_cons, List.mem_cons] at hmem
        rcases hmem with he | hm
        · exact h1 he.symm
        · rcases List.mem_map.mp hm with ⟨y, hy, hyfst⟩
          have hqy := hrel y hy
          rw [hyfst] at hqy
          exact absurd hlt (Nat.lt_asymm hqy)
      · simp only [sumBeforePhase, weightInList, if_neg h1, if_neg h2]
        have hm2 : p1 ∈ rest.map Prod.fst := by
          simp only [List.map_cons, List.mem_cons] at hmem
          rcases hmem with he | hm
          · exact absurd he.symm h1
          · exact hm
        have hih := ih p1 p2 hnn2 htail hm2 hlt
        linarith

theorem getPhaseWeights_nonneg (cfg : ScanConfig) :
    ∀ x ∈ getPhaseWeights cfg, 0 ≤ x.2 := by
  rcases cfg with ⟨d, s, a, f, c, w, t⟩
  cases d <;> cases s <;> cases a <;> cases f <;> simp [getPhaseWeights, phaseIdx]

theorem getPhaseWeights_sorted (cfg : ScanConfig) :
    (getPhaseWeights cfg).Pairwise (fun x y => phaseIdx x.1 < phaseIdx y.1) := by
  rcases cfg with ⟨d, s, a, f, c, w, t⟩
  cases d <;> cases s <;> cases a <;> cases f <;> simp [getPhaseWeights, phaseIdx]

theorem totalWeight_pos (cfg : ScanConfig) : 0 < totalWeight cfg := by
  rcases cfg with ⟨d, s, a, f, c, w, t⟩
  cases d <;> cases s <;> cases a <;> cases f <;>
    simp [totalWeight, getPhaseWeights] <;> norm_num

theorem jsRound_mono {q1 q2 : ℚ} (h : q1 ≤ q2) : jsRound q1 ≤ jsRound q2 := by
  unfold jsRound
  exact Int.floor_le_floor (by linarith)

theorem progress_min_mono (cfg : ScanConfig) {a1 a2 : ℚ} (h : a1 ≤ a2) :
    min (jsRound (a1 / totalWeight cfg * 100)) 100 ≤
      min (jsRound (a2 / totalWeight cfg * 100)) 100 := by
  have hT := totalWeight_pos cfg
  have hdiv : a1 / totalWeight cfg * 100 ≤ a2 / totalWeight cfg * 100 := by
    apply mul_le_mul_of_nonneg_right _ (by norm_num : (0 : ℚ) ≤ 100)
    exact (div_le_div_iff_of_pos_right hT).mpr h
  exact min_le_min (jsRound_mono hdiv) le_rfl

/-! ## Scan state machine lemmas -/

theorem runPhaseStep_dbResults (cfg : ScanConfig) (env : ScanEnv) (ad : Option ScanPhase)
    (st : ScanState) (p : ScanPhase) (h : p ≠ ScanPhase.database) :
    (runPhaseStep cfg env ad st p).dbResults = st.dbResults := by
  cases p <;> first | rfl | exact absurd rfl h

theorem runPhaseStep_storageResults (cfg : ScanConfig) (env : ScanEnv) (ad : Option ScanPhase)
    (st : ScanState) (p : ScanPhase) (h : p ≠ ScanPhase.storage) :
    (runPhaseStep cfg env ad st p).storageResults = st.storageResults := by
  cases p <;> first | rfl | exact absurd rfl h

theorem runPhaseStep_authResults (cfg : ScanConfig) (env : ScanEnv) (ad : Option ScanPhase)
    (st : ScanState) (p : ScanPhase) (h : p ≠ ScanPhase.auth) :
    (runPhaseStep cfg env ad st p).authResults = st.authResults := by
  cases p <;> first | rfl | exact absurd rfl h

theorem runPhaseStep_fnResults (cfg : ScanConfig) (env : ScanEnv) (ad : Option ScanPhase)
    (st : ScanState) (p : ScanPhase) (h : p ≠ ScanPhase.functions) :
    (runPhaseStep cfg env ad st p).fnResults = st.fnResults := by
  cases p <;> first | rfl | exact absurd rfl h

theorem scanBody_abort_preserves {γ : Type} (cfg : ScanConfig) (env : ScanEnv)
    (a q : ScanPhase) (get : ScanState → γ)
    (hstep : ∀ st p, p ≠ q → get (runPhaseStep cfg env (some a) st p) = get st)
    (hlt : phaseIdx a < phaseIdx q) :
    ∀ (l : List ScanPhase) (st : ScanState), a ∈ l →
      l.Pairwise (fun x y => phaseIdx x < phaseIdx y) →
      ∃ st2, scanBody cfg env (some a) l st = Except.error st2 ∧ get st2 = get st := by
  intro l
  induction l with
  | nil =>
    intro st ha _
    exact absurd ha (List.not_mem_nil a)
  | cons p rest ih =>
    intro st ha hsort
    rcases List.pairwise_cons.mp hsort with ⟨hrel, htail⟩
    by_cases hpq : p = q
    · subst hpq
      have hap : a ≠ p := fun he => by
        rw [he] at hlt
        exact lt_irrefl _ hlt
      have ha2 : a ∈ rest := by
        rcases List.mem_cons.mp ha with h1 | h2
        · exact absurd h1 hap
        · exact h2
      exact absurd hlt (Nat.lt_asymm (hrel a ha2))
    · have hget := hstep st p hpq
      by_cases hle : phaseIdx a ≤ phaseIdx p
      · refine ⟨runPhaseStep cfg env (some a) st p, ?_, hget⟩
        simp [scanBody, abortSeenAfter, hle]
      · have hap : a ≠ p := fun he => hle (he ▸ le_rfl)
        have ha2 : a ∈ rest := by
          rcases List.mem_cons.mp ha with h1 | h2
          · exact absurd h1 hap
          · exact h2
        rcases ih (runPhaseStep cfg env (some a) st p) ha2 htail with ⟨st2, heq, hpres⟩
        refine ⟨st2, ?_, hpres.trans hget⟩
        simp [scanBody, abortSeenAfter, hle, heq]

theorem scanBody_none_ok (cfg : ScanConfig) (env : ScanEnv) :
    ∀ (l : List ScanPhase) (st : ScanState),
      ∃ st2, scanBody cfg env none l st = Except.ok st2 := by
  intro l
  induction l with
  | nil =>
    intro st
    exact ⟨st, rfl⟩
  | cons p rest ih =>
    intro st
    rcases ih (runPhaseStep cfg env none st p) with ⟨st2, h⟩
    exact ⟨st2, by simp [scanBody, abortSeenAfter, h]⟩

theorem runEnabled_sorted (cfg : ScanConfig) :
    (runEnabled cfg).Pairwise (fun x y => phaseIdx x < phaseIdx y) := by
  rcases cfg with ⟨d, s, a, f, c, w, t⟩
  cases d <;> cases s <;> cases a <;> cases f <;> simp [runEnabled, phaseIdx]

theorem complete_not_mem_runEnabled (cfg : ScanConfig) :
    ScanPhase.complete ∉ runEnabled cfg := by
  rcases cfg with ⟨d, s, a, f, c, w, t⟩
  cases d <;> cases s <;> cases a <;> cases f <;> simp [runEnabled, phaseIdx]

theorem phaseIdx_lt_complete (cfg : ScanConfig) (p : ScanPhase) (hp : p ∈ runEnabled cfg) :
    phaseIdx p < phaseIdx ScanPhase.complete := by
  have hne : p ≠ ScanPhase.complete := fun he => complete_not_mem_runEnabled cfg (he ▸ hp)
  cases p <;> first | decide | exact absurd rfl hne

/-- C6: calculateProgress equals the spec formula (100 times completed
weight plus scaled current weight over total enabled weight, rounded,
capped at 100); it is monotone in the fractional completion of a phase and
across consecutive enabled phases (the scan-order sense of non-decreasing);
and an un-aborted scan ends in complete with progress exactly 100. -/
theorem progress_model_rules (cfg : ScanConfig) :
    (∀ (cur : ScanPhase) (fp : ℚ), calculateProgress cfg cur fp = specProgress cfg cur fp) ∧
    (∀ (cur : ScanPhase) (fp1 fp2 : ℚ), fp1 ≤ fp2 →
      calculateProgress cfg cur fp1 ≤ calculateProgress cfg cur fp2) ∧
    (∀ (p1 p2 : ScanPhase) (fp1 fp2 : ℚ), p1 ∈ (getPhaseWeights cfg).map Prod.fst →
      phaseIdx p1 < phaseIdx p2 → fp1 ≤ 100 → 0 ≤ fp2 →
      calculateProgress cfg p1 fp1 ≤ calculateProgress cfg p2 fp2) ∧
    (∀ env : ScanEnv, (runScan cfg env none).phase = ScanPhase.complete ∧
      (runScan cfg env none).progress = 100) := by
  refine ⟨?_, ?_, ?_, ?_⟩
  · intro cur fp
    unfold calculateProgress specProgress
    rw [accumulatedWeight_eq]
    have harg : (sumBeforePhase (getPhaseWeights cfg) cur +
        weightInList (getPhaseWeights cfg) cur * fp / 100) / totalWeight cfg * 100 =
        100 * (sumBeforePhase (getPhaseWeights cfg) cur +
          weightInList (getPhaseWeights cfg) cur * (fp / 100)) / totalWeight cfg := by
      ring
    rw [harg]
  · intro cur fp1 fp2 h
    unfold calculateProgress
    rw [accumulatedWeight_eq, accumulatedWeight_eq]
    apply progress_min_mono
    have hw := weightInList_nonneg (getPhaseWeights cfg) cur (getPhaseWeights_nonneg cfg)
    have hmul : weightInList (getPhaseWeights cfg) cur * fp1 ≤
        weightInList (getPhaseWeights cfg) cur * fp2 := mul_le_mul_of_nonneg_left h hw
    linarith
  · intro p1 p2 fp1 fp2 hmem hlt h100 h0
    unfold calculateProgress
    rw [accumulatedWeight_eq, accumulatedWeight_eq]
    apply progress_min_mono
    have hnn := getPhaseWeights_nonneg cfg
    have hw1 := weightInList_nonneg (getPhaseWeights cfg) p1 hnn
    have hw2 := weightInList_nonneg (getPhaseWeights cfg) p2 hnn
    have hkey := sumBefore_weight_le (getPhaseWeights cfg) p1 p2 hnn
      (getPhaseWeights_sorted cfg) hmem hlt
    have hscale1 : weightInList (getPhaseWeights cfg) p1 * fp1 ≤
        weightInList (getPhaseWeights cfg) p1 * 100 := mul_le_mul_of_nonneg_left h100 hw1
    have hscale2 : 0 ≤ weightInList (getPhaseWeights cfg) p2 * fp2 := mul_nonneg hw2 h0
    linarith
  · intro env
    rcases scanBody_none_ok cfg env (runEnabled cfg) initialScanState with ⟨st2, h⟩
    constructor <;> simp [runScan, h]

theorem progress_model_rules_witness :
    calculateProgress sampleConfig ScanPhase.database 50 =
      specProgress sampleConfig ScanPhase.database 50 ∧
    calculateProgress sampleConfig ScanPhase.auth 10 ≤
      calculateProgress sampleConfig ScanPhase.auth 90 ∧
    calculateProgress sampleConfig ScanPhase.database 100 ≤
      calculateProgress sampleConfig ScanPhase.storage 0 ∧
    (runScan sampleConfig sampleEnv none).progress = 100 :=
  ⟨(progress_model_rules sampleConfig).1 ScanPhase.database 50,
    (progress_model_rules sampleConfig).2.1 ScanPhase.auth 10 90 (by norm_num),
    (progress_model_rules sampleConfig).2.2.1 ScanPhase.database ScanPhase.storage 100 0
      (by decide) (by decide) (by norm_num) (by norm_num),
    ((progress_model_rules sampleConfig).2.2.2 sampleEnv).2⟩

/-- C3: once the abort flag is raised during an enabled phase, the scan
throws at the next checkpoint, so it ends idle and labelled aborted (never
complete) and every phase after the aborting one keeps its reset, empty
result list; and the batch runner, once the flag is observed at the start
of a wave, starts no further wave and returns exactly the outcomes of the
waves already completed. -/
theorem autopwn_abort_semantics (cfg : ScanConfig) (env : ScanEnv) (p : ScanPhase)
    (hp : p ∈ runEnabled cfg) :
    ((runScan cfg env (some p)).phase = ScanPhase.idle ∧
     (runScan cfg env (some p)).progressLabel = "Scan Aborted" ∧
     (runScan cfg env (some p)).phase ≠ ScanPhase.complete) ∧
    (phaseIdx p < phaseIdx ScanPhase.database → (runScan cfg env (some p)).dbResults = []) ∧
    (phaseIdx p < phaseIdx ScanPhase.storage →
      (runScan cfg env (some p)).storageResults = []) ∧
    (phaseIdx p < phaseIdx ScanPhase.auth → (runScan cfg env (some p)).authResults = []) ∧
    (phaseIdx p < phaseIdx ScanPhase.functions →
      (runScan cfg env (some p)).fnResults = []) ∧
    (∀ (γ : Type) (tasks : List (Settled γ)) (b k : Nat) (sg : Nat → Bool),
      sg k = true → (∀ j, j < k → sg j = false) →
      runInBatches tasks (b + 1) sg = (tasks.take (k * (b + 1))).map settleValue) := by
  have hsort := runEnabled_sorted cfg
  refine ⟨?_, ?_, ?_, ?_, ?_, ?_⟩
  · rcases scanBody_abort_preserves cfg env p ScanPhase.complete (fun _ => (0 : Nat))
      (fun _ _ _ => rfl) (phaseIdx_lt_complete cfg p hp) (runEnabled cfg)
      initialScanState hp hsort with ⟨st2, herr, _⟩
    refine ⟨?_, ?_, ?_⟩ <;> simp [runScan, herr]
  · intro hlt
    rcases scanBody_abort_preserves cfg env p ScanPhase.database ScanState.dbResults
      (fun st p2 h2 => runPhaseStep_dbResults cfg env (some p) st p2 h2) hlt
      (runEnabled cfg) initialScanState hp hsort with ⟨st2, herr, hpres⟩
    simp only [runScan, herr]
    rw [hpres]
    rfl
  · intro hlt
    rcases scanBody_abort_preserves cfg env p ScanPhase.storage ScanState.storageResults
      (fun st p2 h2 => runPhaseStep_storageResults cfg env (some p) st p2 h2) hlt
      (runEnabled cfg) initialScanState hp hsort with ⟨st2, herr, hpres⟩
    simp only [runScan, herr]
    rw [hpres]
    rfl
  · intro hlt
    rcases scanBody_abort_preserves cfg env p ScanPhase.auth ScanState.authResults
      (fun st p2 h2 => runPhaseStep_authResults cfg env (some p) st p2 h2) hlt
      (runEnabled cfg) initialScanState hp hsort with ⟨st2, herr, hpres⟩
    simp only [runScan, herr]
    rw [hpres]
    rfl
  · intro hlt
    rcases scanBody_abort_preserves cfg env p ScanPhase.functions ScanState.fnResults
      (fun st p2 h2 => runPhaseStep_fnResults cfg env (some p) st p2 h2) hlt
      (runEnabled cfg) initialScanState hp hsort with ⟨st2, herr, hpres⟩
    simp only [runScan, herr]
    rw [hpres]
    rfl
  · intro γ tasks b k sg hk hprev
    exact runInBatches_first_abort tasks b k sg hk hprev

theorem autopwn_abort_semantics_witness :
    (runScan sampleConfig sampleEnv (some ScanPhase.database)).phase = ScanPhase.idle ∧
    (runScan sampleConfig sampleEnv (some ScanPhase.database)).storageResults = [] ∧
    runInBatches [Settled.fulfilled (1 : Nat), Settled.fulfilled 2] 1
      (fun n => decide (1 ≤ n)) = [1] := by
  have h := autopwn_abort_semantics sampleConfig sampleEnv ScanPhase.database (by decide)
  refine ⟨h.1.1, h.2.2.1 (by decide), ?_⟩
  have h2 := h.2.2.2.2.2 Nat [Settled.fulfilled 1, Settled.fulfilled 2] 0 1
    (fun n => decide (1 ≤ n)) (by decide)
    (fun j hj => by
      have hj0 : j = 0 := Nat.lt_one_iff.mp hj
      subst hj0
      rfl)
  rw [h2]
  decide

end SupabasePwn
